import Mathlib

/- Formal model of `nn_lib.py`: a minimal feed-forward neural-network library
(layer abstractions, a stacked multi-layer network, a mini-batch SGD trainer,
a min-max preprocessor).  2-D numpy arrays are modelled as functions from a
pair of `Fin` indices; exact field arithmetic (`ℚ` or `ℝ`) stands in for
floating point. -/

namespace NNLib

/-- A 2-D array of shape `(m, n)` with entries in `R`. -/
abbrev Mat (R : Type) (m n : ℕ) : Type := Fin m × Fin n → R

section CoreDefs

variable {R : Type} [CommRing R] {m n k b nIn nOut d1 d2 d3 : ℕ}

/-- `np.matmul` on 2-D arrays. -/
def matMul (A : Mat R m k) (B : Mat R k n) : Mat R m n :=
  fun p => ∑ j : Fin k, A (p.1, j) * B (j, p.2)

/-- numpy transpose `.T`. -/
def transpose (A : Mat R m n) : Mat R n m := fun p => A (p.2, p.1)

/-- `np.ones((m, n))`. -/
def onesMat (R : Type) [CommRing R] (m n : ℕ) : Mat R m n := fun _ => 1

/-- `np.matmul(x, W) + b` (`LinearLayer.forward`, line 212), with the
`(1, n_out)`-shaped bias broadcast over the batch dimension. -/
def affineForward (W : Mat R nIn nOut) (bias : Mat R 1 nOut) (x : Mat R b nIn) :
    Mat R b nOut :=
  fun p => matMul x W p + bias (0, p.2)

/-- The mutable state of a `LinearLayer`: weights `_W`, bias `_b` (shape
`(1, n_out)` as in the source), the input cache `_cache_current`, and the
stored parameter gradients `_grad_W_current` / `_grad_b_current` (all three
initialised to `None` by the constructor; the random `xavier_init` values of
`W` and `b` are simply arbitrary field elements here). -/
structure LinState (R : Type) (b nIn nOut : ℕ) where
  W : Mat R nIn nOut
  bias : Mat R 1 nOut
  cache : Option (Mat R b nIn)
  gradW : Option (Mat R nIn nOut)
  gradB : Option (Mat R 1 nOut)

/-- `LinearLayer.forward`: caches the input (and the batch size, which here
is the type index `b`) and returns `np.matmul(x, W) + b`. -/
def linForward (st : LinState R b nIn nOut) (x : Mat R b nIn) :
    LinState R b nIn nOut × Mat R b nOut :=
  ({ st with cache := some x }, affineForward st.W st.bias x)

/-- `LinearLayer.backward`: reads the cached input `x` (calling it before any
forward pass crashes in Python, modelled by `none`), stores
`_grad_W_current = x.T @ grad_z` and
`_grad_b_current = np.ones((1, batch_size)) @ grad_z`, and returns
`grad_z @ W.T`. -/
def linBackward (st : LinState R b nIn nOut) (gz : Mat R b nOut) :
    Option (LinState R b nIn nOut × Mat R b nIn) :=
  match st.cache with
  | none => none
  | some x =>
      some ({ st with
                gradW := some (matMul (transpose x) gz)
                gradB := some (matMul (onesMat R 1 b) gz) },
            matMul gz (transpose st.W))

/-- `LinearLayer.update_params`: `W -= lr * _grad_W_current` and
`b -= lr * _grad_b_current` (in-place `-=`); gradients still `None` would
crash in Python, modelled by `none`. -/
def linUpdate (lr : R) (st : LinState R b nIn nOut) :
    Option (LinState R b nIn nOut) :=
  match st.gradW, st.gradB with
  | some gw, some gb =>
      some { st with W := fun p => st.W p - lr * gw p
                     bias := fun p => st.bias p - lr * gb p }
  | _, _ => none

/-- Which activation layer a network slot holds.  Only `"relu"` and
`"sigmoid"` can be constructed: the `"linear"` branch of
`find_activation_func` crashes (see `findActivation`). -/
inductive ActKind where
  | relu
  | sigmoid
deriving DecidableEq

/-- The state of an activation layer: its kind and its `_cache_current`
(both `SigmoidLayer` and `ReluLayer` cache their forward output). -/
structure ActState (R : Type) (b n : ℕ) where
  kind : ActKind
  cache : Option (Mat R b n)

/-- `MultiLayerNetwork._layers`: the list of `(LinearLayer, activation)`
pairs, indexed by overall input and output dimension so that consecutive
layers fit, as the constructor's `feature_list` guarantees. -/
inductive Net (R : Type) (b : ℕ) : ℕ → ℕ → Type where
  | nil : ∀ {d : ℕ}, Net R b d d
  | cons : ∀ {d1 d2 d3 : ℕ}, LinState R b d1 d2 → ActState R b d2 →
      Net R b d2 d3 → Net R b d1 d3

/-- One gradient-descent step on a single linear layer as claim C8 states
it: `W := W - lr*grad_W`, `b := b - lr*grad_b`, everything else untouched
(total version, defined when the gradients are present). -/
def linStep (lr : R) (st : LinState R b nIn nOut) : LinState R b nIn nOut :=
  { st with W := fun p => st.W p - lr * (st.gradW.getD 0) p
            bias := fun p => st.bias p - lr * (st.gradB.getD 0) p }

/-- `MultiLayerNetwork.update_params`: one `LinearLayer.update_params` step
per layer pair (the source iterates the pairs in reverse index order, which
is state-equivalent since the layers are updated independently; activation
layers inherit the no-op `Layer.update_params`). -/
def netUpdate (lr : R) : {e1 e2 : ℕ} → Net R b e1 e2 → Option (Net R b e1 e2)
  | _, _, .nil => some .nil
  | _, _, .cons lin act rest => do
      let rest2 ← netUpdate lr rest
      let lin2 ← linUpdate lr lin
      some (.cons lin2 act rest2)

/-- The network claim C8 says `update_params` produces: every linear layer
stepped by `linStep`, activation layers untouched. -/
def netSGDStep (lr : R) : {e1 e2 : ℕ} → Net R b e1 e2 → Net R b e1 e2
  | _, _, .nil => .nil
  | _, _, .cons lin act rest => .cons (linStep lr lin) act (netSGDStep lr rest)

/-- Every linear layer of the network has stored gradients. -/
def AllGrads : {e1 e2 : ℕ} → Net R b e1 e2 → Prop
  | _, _, .nil => True
  | _, _, .cons lin _ rest => lin.gradW.isSome ∧ lin.gradB.isSome ∧ AllGrads rest

end CoreDefs

/-! Preprocessor (`Preprocessor.__init__` / `apply` / `revert`), over `ℚ`. -/

/-- Column-wise `np.max(data, axis=0)` (numpy requires at least one row). -/
def colMax {m n : ℕ} (data : Mat ℚ (m + 1) n) : Fin n → ℚ :=
  fun j => Finset.univ.sup' Finset.univ_nonempty (fun i => data (i, j))

/-- Column-wise `np.min(data, axis=0)`. -/
def colMin {m n : ℕ} (data : Mat ℚ (m + 1) n) : Fin n → ℚ :=
  fun j => Finset.univ.inf' Finset.univ_nonempty (fun i => data (i, j))

/-- The preprocessor's own state: the fitted per-column extrema. -/
structure Preproc (n : ℕ) where
  maxData : Fin n → ℚ
  minData : Fin n → ℚ

/-- `Preprocessor.__init__`: reads the column extrema of the fitting data. -/
def prepInit {m n : ℕ} (data : Mat ℚ (m + 1) n) : Preproc n :=
  ⟨colMax data, colMin data⟩

/-- `Preprocessor.apply`: `(data - min)/(max - min)`, broadcast by row. -/
def prepApply {k n : ℕ} (P : Preproc n) (d : Mat ℚ k n) : Mat ℚ k n :=
  fun p => (d p - P.minData p.2) / (P.maxData p.2 - P.minData p.2)

/-- `Preprocessor.revert`: `min + normalised*(max - min)`. -/
def prepRevert {k n : ℕ} (P : Preproc n) (d : Mat ℚ k n) : Mat ℚ k n :=
  fun p => P.minData p.2 + d p * (P.maxData p.2 - P.minData p.2)

/-! Configuration-string handling (`find_activation_func`,
`Trainer.__init__`). -/

/-- The Python exceptions the constructors can raise. -/
inductive PyErr where
  | assertionError
  | typeError
  | indexError
  | exception
deriving DecidableEq

/-- `MultiLayerNetwork.find_activation_func` on one activation string.  The
`"linear"` branch executes `LinearLayer()`: `LinearLayer.__init__` has two
required positional parameters `n_in`, `n_out`, so this call raises
`TypeError` before any object is built. -/
def findActivation (s : String) : Except PyErr ActKind :=
  if s = "relu" then .ok .relu
  else if s = "linear" then .error .typeError
  else if s = "sigmoid" then .ok .sigmoid
  else .error .assertionError

/-- The `MultiLayerNetwork.__init__` loop: for each index into `neurons` it
looks up `activations[index]` (an out-of-range index raises `IndexError`)
and runs `find_activation_func`; the first raising lookup aborts
construction.  The `LinearLayer(feature_list[i], feature_list[i+1])` builds
(random weight init) never raise and are elided. -/
def mlnLoop (acts : List String) : List ℕ → ℕ → Except PyErr (List ActKind)
  | [], _ => .ok []
  | _ :: rest, i =>
    match acts.get? i with
    | none => .error .indexError
    | some s => do
        let a ← findActivation s
        let tail ← mlnLoop acts rest (i + 1)
        pure (a :: tail)

/-- Constructing a `MultiLayerNetwork`: the activation lookups of the
constructor loop (the only raising part of `__init__`). -/
def mlnInit (neurons : List ℕ) (acts : List String) : Except PyErr (List ActKind) :=
  mlnLoop acts neurons 0

/-- The loss layer a `Trainer` holds. -/
inductive LossKind where
  | mse
  | softmaxCrossEntropy
deriving DecidableEq

/-- `Trainer.__init__` loss selection.  The source compares `loss_fun` with
the literals using `is`; for the interned literal strings involved this
coincides with string equality, which is how it is modelled. -/
def trainerInitLoss (lossFun : String) : Except PyErr LossKind :=
  if lossFun = "mse" then .ok .mse
  else if lossFun = "softmax_cross_entropy" then .ok .softmaxCrossEntropy
  else .error .exception

/-! `Trainer.shuffle`, modelled on datasets given as one row list per
index. -/

/-- Python slice `row[:-t]` on a list: empty when `t = 0` (since `-0 == 0`
the slice is `[:0]`), otherwise all but the last `t` entries. -/
def pySliceUpToNeg (t : ℕ) (row : List ℚ) : List ℚ :=
  if t = 0 then [] else row.take (row.length - t)

/-- Python slice `row[-t:]` on a list: the whole row when `t = 0` (`[0:]`),
otherwise the last `t` entries. -/
def pySliceFromNeg (t : ℕ) (row : List ℚ) : List ℚ :=
  if t = 0 then row else row.drop (row.length - t)

/-- `Trainer.shuffle`, with the row permutation `σ` chosen by
`np.random.shuffle` made an explicit parameter: the input and target rows
are `np.hstack`ed, the stacked rows are permuted jointly, and the result is
split back at column `-target_dataset.shape[1]`. -/
def shuffleModel {N : ℕ} (σ : Equiv.Perm (Fin N)) (tgtW : ℕ)
    (inputs targets : Fin N → List ℚ) :
    (Fin N → List ℚ) × (Fin N → List ℚ) :=
  (fun i => pySliceUpToNeg tgtW (inputs (σ i) ++ targets (σ i)),
   fun i => pySliceFromNeg tgtW (inputs (σ i) ++ targets (σ i)))

/-- One-row input dataset for the C9 counterexample. -/
def cinputs : Fin 1 → List ℚ := fun _ => [5]

/-- Zero-width (shape `(1, 0)`) target dataset for the C9 counterexample. -/
def ctargets : Fin 1 → List ℚ := fun _ => []

/-! C10: a small store semantics for numpy arrays, to state that
`Preprocessor.__init__` and `Preprocessor.apply` never write to the array
passed to them.  Arrays live in a store (index = array identity, allocation
appends); each numpy operation these methods use — `np.max`, `np.min` and
the binary ufuncs `-` and `/` — is out-of-place: it reads its operands and
allocates a fresh result. -/

/-- A numpy array as a list of rows. -/
abbrev PyArr : Type := List (List ℚ)

/-- The heap of allocated arrays. -/
abbrev Store : Type := List PyArr

/-- Column-wise `np.max(a, axis=0)` on a row-list array (numpy raises on an
empty array, modelled as `none`). -/
def colMaxL : PyArr → Option (List ℚ)
  | [] => none
  | r :: rs => some (rs.foldl (fun acc row => List.zipWith max acc row) r)

/-- Column-wise `np.min(a, axis=0)`. -/
def colMinL : PyArr → Option (List ℚ)
  | [] => none
  | r :: rs => some (rs.foldl (fun acc row => List.zipWith min acc row) r)

/-- The preprocessor state in the store model: the fitted extrema, fresh
arrays owned by the object. -/
structure PrepL where
  maxData : List ℚ
  minData : List ℚ

/-- `Preprocessor.__init__` in the store model: reads the array `ref`
points to and computes its column extrema; no store cell is written. -/
def prepInitS (st : Store) (ref : ℕ) : Option (PrepL × Store) :=
  match st.get? ref with
  | none => none
  | some a =>
      match colMaxL a, colMinL a with
      | some mx, some mn => some (⟨mx, mn⟩, st)
      | _, _ => none

/-- `(row - mn)/(mx - mn)` entrywise on one row. -/
def normRow (mx mn row : List ℚ) : List ℚ :=
  ((row.zip mn).zip mx).map (fun y => (y.1.1 - y.1.2) / (y.2 - y.1.2))

/-- `Preprocessor.apply` in the store model: reads the argument array and
allocates the freshly computed normalised array, returning its reference. -/
def prepApplyS (P : PrepL) (st : Store) (ref : ℕ) : Option (Store × ℕ) :=
  match st.get? ref with
  | none => none
  | some a => some (st ++ [a.map (normRow P.maxData P.minData)], st.length)

/-- Concrete one-array store for the C10 witness. -/
def stEx : Store := [[[1, 2]]]

/-- Concrete preprocessor state for the C10 witness. -/
def prepLEx : PrepL := ⟨[2, 3], [1, 1]⟩

/-! `Trainer.train` control flow.  The network, the loss layer and the
stored `self.grad_z` are abstracted into a state type `S` with the three
per-batch operations as parameters (`evalLoss` models `self.eval_loss`,
which runs the network forward pass and the loss forward and backward
passes and returns the batch loss; `back` models
`multilayer_network.backward(self.grad_z)`; `upd` models
`multilayer_network.update_params(learning_rate)`): claim C6 concerns the
epoch/batch control flow, which is independent of the numeric state.  Rows
(the hstacked input+target rows) are an abstract type `α`;
`np.random.shuffle` is the oracle `perm`, one permutation per epoch.  The
batch list built by each epoch is additionally recorded in a ghost log. -/

/-- `np.vsplit(data[:k*bs], k)`: `k` equal chunks of `bs` rows. -/
def vsplitChunks {α : Type} (bs : ℕ) : ℕ → List α → List (List α)
  | 0, _ => []
  | k + 1, l => l.take bs :: vsplitChunks bs k (l.drop bs)

/-- The batch list one epoch of `Trainer.train` builds: `floor(N/bs)` full
batches plus, when `floor(N/bs)*bs` differs from the current row count, the
remaining rows as a final batch (`N` is `input_dataset.shape[0]` measured
once, before the first epoch). -/
def epochBatches {α : Type} (bs N : ℕ) (data : List α) : List (List α) :=
  if N / bs * bs ≠ data.length
  then vsplitChunks bs (N / bs) data ++ [data.drop (N / bs * bs)]
  else vsplitChunks bs (N / bs) data

/-- The body of the inner batch loop: one `eval_loss`, one network
`backward`, one `update_params`, and the batch loss appended. -/
def batchStep {α S : Type} (evalLoss : S → List α → S × ℚ) (back upd : S → S)
    (acc : S × List ℚ) (batch : List α) : S × List ℚ :=
  let e := evalLoss acc.1 batch
  (upd (back e.1), acc.2 ++ [e.2])

/-- The result of `Trainer.train`: final abstract state, final (possibly
reshuffled) dataset, the returned loss list, and the ghost log of the batch
lists used by the successive epochs. -/
structure TrainResult (α S : Type) where
  state : S
  data : List α
  losses : List ℚ
  batchLog : List (List (List α))

/-- The epoch loop of `Trainer.train`: each epoch optionally reshuffles the
(persisting) dataset with that epoch's permutation, splits it into batches,
and folds the batch body over them. -/
def trainLoop {α S : Type} (evalLoss : S → List α → S × ℚ) (back upd : S → S)
    (flag : Bool) (perm : ℕ → List α → List α) (bs N : ℕ) :
    ℕ → ℕ → S → List α → List ℚ → List (List (List α)) → TrainResult α S
  | 0, _, s, data, losses, log => ⟨s, data, losses, log⟩
  | nLeft + 1, e, s, data, losses, log =>
      let data2 := if flag then perm e data else data
      let batches := epochBatches bs N data2
      let folded := batches.foldl (batchStep evalLoss back upd) (s, losses)
      trainLoop evalLoss back upd flag perm bs N nLeft (e + 1) folded.1 data2
        folded.2 (log ++ [batches])

/-- `Trainer.train`: `nb_epoch` epochs starting from an empty loss list. -/
def trainModel {α S : Type} (evalLoss : S → List α → S × ℚ) (back upd : S → S)
    (flag : Bool) (perm : ℕ → List α → List α) (bs N nbEpoch : ℕ)
    (s0 : S) (data : List α) : TrainResult α S :=
  trainLoop evalLoss back upd flag perm bs N nbEpoch 0 s0 data [] []

/-! The loss layers, over `ℝ`. -/

/-- The matrix `x` with entry `q0` replaced by `s` (used to state the exact
partial derivatives of the losses). -/
def updEntry {m n : ℕ} (x : Mat ℝ m n) (q0 : Fin m × Fin n) (s : ℝ) :
    Mat ℝ m n :=
  fun q => if q = q0 then s else x q

/-- `MSELossLayer._mse` (= `forward`'s return value):
`np.mean((y_pred - y_target)**2)`, the sum of all squared entry differences
divided by the total entry count `m*n`. -/
noncomputable def mseForward {m n : ℕ} (p t : Mat ℝ m n) : ℝ :=
  (∑ q, (p q - t q) ^ 2) / ((m : ℝ) * (n : ℝ))

/-- `MSELossLayer._mse_grad` (= `backward`'s return value on the cached
pair): `2 * (y_pred - y_target) / len(y_pred)`, where `len` of a 2-D numpy
array is its number of rows `m`. -/
noncomputable def mseBackward {m n : ℕ} (p t : Mat ℝ m n) : Mat ℝ m n :=
  fun q => 2 * (p q - t q) / (m : ℝ)

/-- `y_pred = [[1, 0]]`, the C2 counterexample input. -/
def Pc : Mat ℝ 1 2 := fun q => if q.2 = 0 then 1 else 0

/-- `y_target = [[0, 0]]`, the C2 counterexample target. -/
def Tc : Mat ℝ 1 2 := fun _ => 0

/-- `CrossEntropyLossLayer.softmax`'s stability shift
`x.max(axis=1, keepdims=True)`: the maximum of row `i` (numpy requires at
least one column). -/
noncomputable def rowMax {m n : ℕ} (x : Mat ℝ m (n + 1)) (i : Fin m) : ℝ :=
  Finset.univ.sup' Finset.univ_nonempty (fun k => x (i, k))

/-- `CrossEntropyLossLayer.softmax`: `np.exp(x - rowmax)` divided by its
row sums. -/
noncomputable def softmaxArr {m n : ℕ} (x : Mat ℝ m (n + 1)) :
    Mat ℝ m (n + 1) :=
  fun q => Real.exp (x q - rowMax x q.1)
    / ∑ k, Real.exp (x (q.1, k) - rowMax x q.1)

/-- The textbook softmax, with no stability shift — the claim's (and the
spec's) description of what the loss is built from. -/
noncomputable def specSoftmax {m n : ℕ} (x : Mat ℝ m (n + 1)) :
    Mat ℝ m (n + 1) :=
  fun q => Real.exp (x q) / ∑ k, Real.exp (x (q.1, k))

/-- `CrossEntropyLossLayer.forward`:
`-1/n_obs * np.sum(y_target * np.log(probs))`, where `n_obs` is the number
of rows and `probs` the shifted softmax of the inputs. -/
noncomputable def ceForward {m n : ℕ} (x y : Mat ℝ (m + 1) (n + 1)) : ℝ :=
  -1 / ((m : ℝ) + 1) * ∑ q, y q * Real.log (softmaxArr x q)

/-- `CrossEntropyLossLayer.backward`: `-1/n_obs * (y_target - probs)` from
the cached `(y_target, probs)` of the preceding `forward`. -/
noncomputable def ceBackward {m n : ℕ} (x y : Mat ℝ (m + 1) (n + 1)) :
    Mat ℝ (m + 1) (n + 1) :=
  fun q => -1 / ((m : ℝ) + 1) * (y q - softmaxArr x q)

/-- The sum of exponentials of row `q0.1` as a function of the varied entry
`q0` (auxiliary for the cross-entropy partial derivative). -/
noncomputable def gRow {m n : ℕ} (x : Mat ℝ (m + 1) (n + 1))
    (q0 : Fin (m + 1) × Fin (n + 1)) (s : ℝ) : ℝ :=
  ∑ k, Real.exp (updEntry x q0 s (q0.1, k))

/-- `inputs = [[0]]`, the C3 witness input. -/
def cex : Mat ℝ 1 1 := fun _ => 0

/-- `y_target = [[1]]` (one-hot), the C3 witness target. -/
def cey : Mat ℝ 1 1 := fun _ => 1

/-! The activation layers and the full network over `ℝ` (claim C1). -/

/-- `SigmoidLayer.forward`'s scalar map: `1/(1 + np.exp(-x))`. -/
noncomputable def sigmoid (t : ℝ) : ℝ := 1 / (1 + Real.exp (-t))

/-- `ReluLayer.forward`'s scalar map: `np.maximum(0, x)`. -/
noncomputable def reluF (t : ℝ) : ℝ := max 0 t

/-- The elementwise map an activation layer applies. -/
noncomputable def actFun : ActKind → ℝ → ℝ
  | .relu => reluF
  | .sigmoid => sigmoid

/-- The `f_prime` factor an activation's `backward` computes from its
cached output `c`: `SigmoidLayer` uses `c * (1 - c)`; `ReluLayer` copies
the cache and maps entries `< 0` to `0` and entries `> 0` to `1` (entries
equal to `0` stay `0`). -/
noncomputable def actPrimeFromCache : ActKind → ℝ → ℝ
  | .relu => fun c => if c < 0 then 0 else if 0 < c then 1 else c
  | .sigmoid => fun c => c * (1 - c)

/-- `SigmoidLayer.forward` / `ReluLayer.forward`: apply the map
elementwise and cache the output. -/
noncomputable def actForward {b n : ℕ} (st : ActState ℝ b n) (x : Mat ℝ b n) :
    ActState ℝ b n × Mat ℝ b n :=
  ({ st with cache := some (fun p => actFun st.kind (x p)) },
   fun p => actFun st.kind (x p))

/-- `SigmoidLayer.backward` / `ReluLayer.backward`:
`np.multiply(grad_z, f_prime)` with `f_prime` computed from the cached
output (calling `backward` before any `forward` crashes in Python,
modelled by `none`). -/
noncomputable def actBackward {b n : ℕ} (st : ActState ℝ b n) (gz : Mat ℝ b n) :
    Option (ActState ℝ b n × Mat ℝ b n) :=
  match st.cache with
  | none => none
  | some c => some (st, fun p => gz p * actPrimeFromCache st.kind (c p))

/-- `MultiLayerNetwork.forward`: applies the layer pairs in list order,
each pair as `activation.forward(linear.forward(x))` (source line 332). -/
noncomputable def netForward {b : ℕ} :
    {e1 e2 : ℕ} → Net ℝ b e1 e2 → Mat ℝ b e1 → Net ℝ b e1 e2 × Mat ℝ b e2
  | _, _, .nil, x => (.nil, x)
  | _, _, .cons lin act rest, x =>
      let fl := linForward lin x
      let fa := actForward act fl.2
      let fr := netForward rest fa.2
      (.cons fl.1 fa.1 fr.1, fr.2)

/-- `MultiLayerNetwork.backward`: traverses the pairs in reverse order,
each pair as `linear.backward(activation.backward(grad_z))` (source line
363); a missing cache (`None` in Python) aborts. -/
noncomputable def netBackward {b : ℕ} :
    {e1 e2 : ℕ} → Net ℝ b e1 e2 → Mat ℝ b e2 → Option (Net ℝ b e1 e2 × Mat ℝ b e1)
  | _, _, .nil, g => some (.nil, g)
  | _, _, .cons lin act rest, g =>
      match netBackward rest g with
      | none => none
      | some br =>
          match actBackward act br.2 with
          | none => none
          | some ba =>
              match linBackward lin ba.2 with
              | none => none
              | some bl => some (.cons bl.1 ba.1 br.1, bl.2)

/-- The cache-independent value of the network's forward pass (`forward`
reads only the weights and biases; `netForward_val` ties this to
`netForward`). -/
noncomputable def netVal {b : ℕ} :
    {e1 e2 : ℕ} → Net ℝ b e1 e2 → Mat ℝ b e1 → Mat ℝ b e2
  | _, _, .nil, x => x
  | _, _, .cons lin act rest, x =>
      netVal rest (fun p => actFun act.kind (affineForward lin.W lin.bias x p))

/-- No relu layer receives an exactly-zero pre-activation entry: at such a
point the relu (and hence the composite loss) need not be differentiable,
so the chain rule only applies away from the kinks. -/
def ReluSafe {b : ℕ} :
    {e1 e2 : ℕ} → Net ℝ b e1 e2 → Mat ℝ b e1 → Prop
  | _, _, .nil, _ => True
  | _, _, .cons lin act rest, x =>
      (act.kind = .relu → ∀ p, affineForward lin.W lin.bias x p ≠ 0)
      ∧ ReluSafe rest (fun p => actFun act.kind (affineForward lin.W lin.bias x p))

/-- The linear functional `v ↦ ∑ i, g i * v i` represented by the gradient
array `g`: `HasFDerivAt L (dualOf g) z` says exactly that `g` is the
gradient of the scalar map `L` at `z`. -/
noncomputable def dualOf {ι : Type} [Fintype ι] (g : ι → ℝ) :
    (ι → ℝ) →L[ℝ] ℝ :=
  ∑ i, g i • (ContinuousLinearMap.proj i : (ι → ℝ) →L[ℝ] ℝ)

/-- The diagonal linear map `v ↦ (fun i => d i * v i)` (the derivative of
an elementwise map). -/
noncomputable def diagCLM {ι : Type} [Fintype ι] (d : ι → ℝ) :
    (ι → ℝ) →L[ℝ] (ι → ℝ) :=
  ContinuousLinearMap.pi
    (fun i => d i • (ContinuousLinearMap.proj i : (ι → ℝ) →L[ℝ] ℝ))

/-- Right multiplication `v ↦ v.W` as a continuous linear map. -/
noncomputable def rightMulCLM {b d1 d2 : ℕ} (W : Mat ℝ d1 d2) :
    Mat ℝ b d1 →L[ℝ] Mat ℝ b d2 :=
  ContinuousLinearMap.pi
    (fun p => ∑ j, W (j, p.2)
      • (ContinuousLinearMap.proj (p.1, j) : (Mat ℝ b d1) →L[ℝ] ℝ))

/-- Left multiplication `V ↦ x.V` as a continuous linear map. -/
noncomputable def leftMulCLM {b d1 d2 : ℕ} (x : Mat ℝ b d1) :
    Mat ℝ d1 d2 →L[ℝ] Mat ℝ b d2 :=
  ContinuousLinearMap.pi
    (fun p => ∑ j, x (p.1, j)
      • (ContinuousLinearMap.proj (j, p.2) : (Mat ℝ d1 d2) →L[ℝ] ℝ))

/-- Bias broadcast `bias ↦ (fun p => bias (0, p.2))` as a continuous
linear map. -/
noncomputable def biasCLM (b n : ℕ) : Mat ℝ 1 n →L[ℝ] Mat ℝ b n :=
  ContinuousLinearMap.pi
    (fun p => (ContinuousLinearMap.proj ((0 : Fin 1), p.2)
      : (Mat ℝ 1 n) →L[ℝ] ℝ))

/-- After a backward pass, the parameter gradients each linear layer
stores are the exact gradients of the loss, seen as a function of that
layer's weights (resp. bias) with everything else held fixed. -/
def StoredGradsExact {b : ℕ} :
    {e1 e2 : ℕ} → Net ℝ b e1 e2 → (Mat ℝ b e2 → ℝ) → Mat ℝ b e1 → Prop
  | _, _, .nil, _, _ => True
  | _, _, .cons lin act rest, L, x =>
      (∃ gw, lin.gradW = some gw
        ∧ HasFDerivAt
            (fun W2 => L (netVal (.cons { lin with W := W2 } act rest) x))
            (dualOf gw) lin.W)
      ∧ (∃ gb, lin.gradB = some gb
        ∧ HasFDerivAt
            (fun b2 => L (netVal (.cons { lin with bias := b2 } act rest) x))
            (dualOf gb) lin.bias)
      ∧ StoredGradsExact rest L
          (fun p => actFun act.kind (affineForward lin.W lin.bias x p))

/-- Single linear layer for the C1 witness (`W = [[1]]`, `b = [[0]]`). -/
def linW : LinState ℝ 1 1 1 := ⟨fun _ => 1, fun _ => 0, none, none, none⟩

/-- One-pair relu network for the C1 witness. -/
def netW : Net ℝ 1 1 1 := .cons linW ⟨.relu, none⟩ .nil

/-- Input `[[1]]` for the C1 witness. -/
def xW : Mat ℝ 1 1 := fun _ => 1

/-- Output gradient `[[1]]` for the C1 witness. -/
def gzW : Mat ℝ 1 1 := fun _ => 1

end NNLib

namespace NNLib

/-! Theorems. -/

section CoreThms

variable {R : Type} [CommRing R] {m n k b nIn nOut d1 d2 d3 : ℕ}

theorem matMul_apply (A : Mat R m k) (B : Mat R k n) (p : Fin m × Fin n) :
    matMul A B p = ∑ j : Fin k, A (p.1, j) * B (j, p.2) := rfl

/-- C4: `LinearLayer.forward` returns the affine transform
`x.W + b` (entrywise `∑ j, x i j * W j k + b k`) and leaves `W` and `b`
unmodified; a subsequent `backward(grad_z)` returns `grad_z.Wᵀ` (entrywise
`∑ k, grad_z i k * W j k`), while storing `xᵀ.grad_z` as the weight gradient
and the column sums of `grad_z` as the bias gradient, again leaving `W` and
`b` unmodified. -/
theorem linearLayer_forward_backward (st : LinState R b nIn nOut)
    (x : Mat R b nIn) (gz : Mat R b nOut) :
    ((linForward st x).2
        = fun p => (∑ j, x (p.1, j) * st.W (j, p.2)) + st.bias (0, p.2))
    ∧ (linForward st x).1.W = st.W
    ∧ (linForward st x).1.bias = st.bias
    ∧ ∃ st2, linBackward (linForward st x).1 gz
          = some (st2, fun p => ∑ j, gz (p.1, j) * st.W (p.2, j))
        ∧ st2.gradW = some (fun q => ∑ i, x (i, q.1) * gz (i, q.2))
        ∧ st2.gradB = some (fun q => ∑ i, gz (i, q.2))
        ∧ st2.W = st.W ∧ st2.bias = st.bias := by
  have hR : matMul gz (transpose st.W)
      = fun p => ∑ j, gz (p.1, j) * st.W (p.2, j) := by
    funext p
    simp [matMul, transpose]
  have hW : matMul (transpose x) gz
      = fun q => ∑ i : Fin b, x (i, q.1) * gz (i, q.2) := by
    funext q
    simp [matMul, transpose]
  have hB : matMul (onesMat R 1 b) gz
      = fun q => ∑ i : Fin b, gz (i, q.2) := by
    funext q
    simp [matMul, onesMat]
  refine ⟨rfl, rfl, rfl,
    { st with cache := some x
              gradW := some (matMul (transpose x) gz)
              gradB := some (matMul (onesMat R 1 b) gz) }, ?_, ?_, ?_, rfl, rfl⟩
  · rw [← hR]
    rfl
  · show some (matMul (transpose x) gz) = _
    exact congrArg some hW
  · show some (matMul (onesMat R 1 b) gz) = _
    exact congrArg some hB

theorem linUpdate_eq_linStep (lr : R) (st : LinState R b nIn nOut)
    (gw : Mat R nIn nOut) (gb : Mat R 1 nOut)
    (hw : st.gradW = some gw) (hb : st.gradB = some gb) :
    linUpdate lr st
      = some { st with W := fun p => st.W p - lr * gw p
                       bias := fun p => st.bias p - lr * gb p } := by
  unfold linUpdate
  rw [hw, hb]

theorem netUpdate_eq_netSGDStep (lr : R) (net : Net R b d1 d2)
    (h : AllGrads net) : netUpdate lr net = some (netSGDStep lr net) := by
  induction net with
  | nil => rfl
  | cons lin act rest ih =>
      simp only [AllGrads] at h
      obtain ⟨hw, hb, hrest⟩ := h
      obtain ⟨gw, hgw⟩ := Option.isSome_iff_exists.1 hw
      obtain ⟨gb, hgb⟩ := Option.isSome_iff_exists.1 hb
      simp only [netUpdate, ih hrest, Option.bind_eq_bind, Option.some_bind,
        linUpdate_eq_linStep lr lin gw gb hgw hgb, netSGDStep]
      simp only [linStep, hgw, hgb, Option.getD_some]

/-- C8: with gradients stored, `LinearLayer.update_params(lr)` replaces `W`
by `W - lr*grad_W` and `b` by `b - lr*grad_b`, leaving the stored gradients
and the cached input untouched (the `{st with ...}` record keeps every other
field); `MultiLayerNetwork.update_params` applies exactly this step
(`netSGDStep`) to every linear layer of the network. -/
theorem update_params_sgd_step (lr : R) (st : LinState R b nIn nOut)
    (gw : Mat R nIn nOut) (gb : Mat R 1 nOut)
    (hw : st.gradW = some gw) (hb : st.gradB = some gb)
    (net : Net R b d1 d2) (hnet : AllGrads net) :
    linUpdate lr st
      = some { st with W := fun p => st.W p - lr * gw p
                       bias := fun p => st.bias p - lr * gb p }
    ∧ netUpdate lr net = some (netSGDStep lr net) :=
  ⟨linUpdate_eq_linStep lr st gw gb hw hb, netUpdate_eq_netSGDStep lr net hnet⟩

end CoreThms

/-- Concrete linear-layer state over `ℚ` used by the C8 witness. -/
def linEx : LinState ℚ 1 1 1 :=
  ⟨fun _ => 3, fun _ => 4, some (fun _ => 2), some (fun _ => 5), some (fun _ => 6)⟩

/-- Concrete one-pair network over `ℚ` used by the C8 witness. -/
def netEx : Net ℚ 1 1 1 := .cons linEx ⟨.relu, none⟩ .nil

theorem update_params_sgd_step_witness :
    linEx.gradW = some (fun _ => 5) ∧ linEx.gradB = some (fun _ => 6)
    ∧ AllGrads netEx
    ∧ (linUpdate (2 : ℚ) linEx
        = some { linEx with W := fun p => linEx.W p - 2 * (fun _ => (5 : ℚ)) p
                            bias := fun p => linEx.bias p - 2 * (fun _ => (6 : ℚ)) p }
      ∧ netUpdate (2 : ℚ) netEx = some (netSGDStep 2 netEx)) := by
  have hg : AllGrads netEx := by
    simp [netEx, AllGrads, linEx]
  exact ⟨rfl, rfl, hg,
    update_params_sgd_step 2 linEx (fun _ => 5) (fun _ => 6) rfl rfl netEx hg⟩

/-- C7: fitting a `Preprocessor` on data whose columns each have strictly
greater maximum than minimum, `revert` undoes `apply` exactly:
`revert (apply d) = d` for every array `d` of compatible width. -/
theorem preprocessor_roundtrip {m n k : ℕ} (data : Mat ℚ (m + 1) n)
    (hlt : ∀ j, colMin data j < colMax data j) (d : Mat ℚ k n) :
    prepRevert (prepInit data) (prepApply (prepInit data) d) = d := by
  funext p
  have h : colMax data p.2 - colMin data p.2 ≠ 0 :=
    sub_ne_zero.2 (ne_of_gt (hlt p.2))
  simp only [prepRevert, prepApply, prepInit]
  rw [div_mul_cancel₀ _ h]
  ring

/-- Concrete fitting data for the C7 witness. -/
def dataEx : Mat ℚ 2 1 := fun p => if p.1 = 0 then 0 else 1

/-- Concrete array to which the C7 witness applies the preprocessor. -/
def dEx : Mat ℚ 3 1 := fun p => (p.1 : ℚ) / 2

theorem preprocessor_roundtrip_witness :
    (∀ j, colMin dataEx j < colMax dataEx j)
    ∧ prepRevert (prepInit dataEx) (prepApply (prepInit dataEx) dEx) = dEx :=
  ⟨by decide, preprocessor_roundtrip dataEx (by decide) dEx⟩

/-- C5 (code bug): evaluating the constructors.  The recognized names
`"relu"`, `"sigmoid"`, `"mse"`, `"softmax_cross_entropy"` construct without
raising and unrecognized names raise — but the recognized activation
`"linear"` also raises, because its branch runs `LinearLayer()` without the
required `n_in`/`n_out` arguments (`TypeError`). -/
theorem config_string_raising :
    mlnInit [1] ["linear"] = .error .typeError
    ∧ mlnInit [4, 2] ["relu", "sigmoid"] = .ok [.relu, .sigmoid]
    ∧ mlnInit [1] ["tanh"] = .error .assertionError
    ∧ trainerInitLoss "mse" = .ok .mse
    ∧ trainerInitLoss "softmax_cross_entropy" = .ok .softmaxCrossEntropy
    ∧ trainerInitLoss "bce" = .error .exception := by
  refine ⟨?_, ?_, ?_, ?_, ?_, ?_⟩ <;> rfl

/-- C9 counterexample: with a zero-width target array, the slice
`stacked[:, :-0]` is `stacked[:, :0]`, so `shuffle` returns an empty input
array rather than a permutation of the rows — no row permutation relates
output to input. -/
theorem shuffle_zero_width_counterexample :
    ¬ ∃ π : Equiv.Perm (Fin 1), ∀ i,
        (shuffleModel (Equiv.refl (Fin 1)) 0 cinputs ctargets).1 i = cinputs (π i)
        ∧ (shuffleModel (Equiv.refl (Fin 1)) 0 cinputs ctargets).2 i = ctargets (π i) := by
  rintro ⟨π, h⟩
  have h1 := (h 0).1
  simp [shuffleModel, pySliceUpToNeg, cinputs, ctargets] at h1

/-- C9 (amended): provided the target array has at least one column, the
rows of `shuffle`'s two outputs are those of the inputs under one common
permutation of the row indices: the input-target pairing is preserved. -/
theorem shuffle_pairing_preserved {N fi ft : ℕ} (σ : Equiv.Perm (Fin N))
    (inputs targets : Fin N → List ℚ) (hft : 1 ≤ ft)
    (hin : ∀ i, (inputs i).length = fi) (htg : ∀ i, (targets i).length = ft) :
    ∃ π : Equiv.Perm (Fin N), ∀ i,
      (shuffleModel σ ft inputs targets).1 i = inputs (π i)
      ∧ (shuffleModel σ ft inputs targets).2 i = targets (π i) := by
  refine ⟨σ, fun i => ⟨?_, ?_⟩⟩
  · show pySliceUpToNeg ft (inputs (σ i) ++ targets (σ i)) = inputs (σ i)
    rw [pySliceUpToNeg, if_neg (by omega)]
    have hlen : (inputs (σ i) ++ targets (σ i)).length - ft
        = (inputs (σ i)).length := by
      simp [htg]
    rw [hlen, List.take_left]
  · show pySliceFromNeg ft (inputs (σ i) ++ targets (σ i)) = targets (σ i)
    rw [pySliceFromNeg, if_neg (by omega)]
    have hlen : (inputs (σ i) ++ targets (σ i)).length - ft
        = (inputs (σ i)).length := by
      simp [htg]
    rw [hlen, List.drop_left]

theorem shuffle_pairing_preserved_witness :
    (1 ≤ 1 ∧ (∀ i : Fin 1, ([(1 : ℚ)] : List ℚ).length = 1)
      ∧ (∀ i : Fin 1, ([(2 : ℚ)] : List ℚ).length = 1))
    ∧ ∃ π : Equiv.Perm (Fin 1), ∀ i,
        (shuffleModel (Equiv.refl (Fin 1)) 1 (fun _ => [(1 : ℚ)])
            (fun _ => [(2 : ℚ)])).1 i = [(1 : ℚ)]
        ∧ (shuffleModel (Equiv.refl (Fin 1)) 1 (fun _ => [(1 : ℚ)])
            (fun _ => [(2 : ℚ)])).2 i = [(2 : ℚ)] :=
  ⟨⟨le_refl 1, fun _ => rfl, fun _ => rfl⟩,
    shuffle_pairing_preserved (Equiv.refl (Fin 1)) (fun _ => [(1 : ℚ)])
      (fun _ => [(2 : ℚ)]) (le_refl 1) (fun _ => rfl) (fun _ => rfl)⟩

/-- C10: in the store model, `Preprocessor.__init__` returns the store
unchanged, and `Preprocessor.apply` only extends the store with the freshly
allocated result (every pre-existing array, in particular the argument, is
unchanged): neither operation writes to the dataset passed in. -/
theorem preprocessor_no_mutation (st : Store) (ref : ℕ) (P : PrepL)
    (Q : PrepL) (st1 st2 : Store) (r : ℕ)
    (h1 : prepInitS st ref = some (Q, st1))
    (h2 : prepApplyS P st ref = some (st2, r)) :
    st1 = st ∧ st2.take st.length = st ∧ r = st.length := by
  unfold prepInitS at h1
  unfold prepApplyS at h2
  cases hg : st.get? ref with
  | none =>
      rw [hg] at h1
      exact absurd h1 (by simp)
  | some a =>
      rw [hg] at h1 h2
      obtain ⟨hst2, hr⟩ : st ++ [a.map (normRow P.maxData P.minData)] = st2
          ∧ st.length = r := by
        simpa using h2
      cases hmx : colMaxL a with
      | none =>
          simp [hmx] at h1
      | some mx =>
          cases hmn : colMinL a with
          | none =>
              simp [hmx, hmn] at h1
          | some mn =>
              simp only [hmx, hmn] at h1
              obtain ⟨hQ, hst1⟩ : (⟨mx, mn⟩ : PrepL) = Q ∧ st = st1 := by
                simpa using h1
              refine ⟨hst1.symm, ?_, hr.symm⟩
              rw [← hst2]
              exact List.take_left st _

theorem preprocessor_no_mutation_witness :
    prepInitS stEx 0 = some (⟨[1, 2], [1, 2]⟩, stEx)
    ∧ prepApplyS prepLEx stEx 0 = some (stEx ++ [[[0, 1/2]]], 1)
    ∧ (stEx = stEx ∧ (stEx ++ [[[0, 1/2]]]).take stEx.length = stEx
        ∧ 1 = stEx.length) := by
  have h1 : prepInitS stEx 0 = some (⟨[1, 2], [1, 2]⟩, stEx) := rfl
  have h2 : prepApplyS prepLEx stEx 0 = some (stEx ++ [[[0, 1/2]]], 1) := by
    show some (stEx ++ [[[(1 - 1) / (2 - 1), (2 - 1) / (3 - 1)]]], 1)
      = some (stEx ++ [[[0, 1/2]]], 1)
    norm_num
  exact ⟨h1, h2, preprocessor_no_mutation stEx 0 prepLEx ⟨[1, 2], [1, 2]⟩ stEx
    (stEx ++ [[[0, 1/2]]]) 1 h1 h2⟩

/-- Floor-plus-remainder form of ceiling division. -/
theorem ceil_div_eq (bs N : ℕ) (hbs : 1 ≤ bs) :
    N / bs + (if N % bs = 0 then 0 else 1) = (N + bs - 1) / bs := by
  have hqr : bs * (N / bs) + N % bs = N := Nat.div_add_mod N bs
  have hrlt : N % bs < bs := Nat.mod_lt _ (by omega)
  by_cases h : N % bs = 0
  · have he : N + bs - 1 = bs * (N / bs) + (bs - 1) := by omega
    rw [he, Nat.mul_add_div (by omega)]
    have h0 : (bs - 1) / bs = 0 := Nat.div_eq_of_lt (by omega)
    simp [h, h0]
  · have he : N + bs - 1 = bs * (N / bs + 1) + (N % bs - 1) := by
      have : bs * (N / bs + 1) = bs * (N / bs) + bs := by ring
      omega
    rw [he, Nat.mul_add_div (by omega)]
    have h0 : (N % bs - 1) / bs = 0 := Nat.div_eq_of_lt (by omega)
    simp [h, h0]

theorem vsplitChunks_flatten {α : Type} (bs : ℕ) :
    ∀ (k : ℕ) (l : List α), (vsplitChunks bs k l).flatten = l.take (k * bs) := by
  intro k
  induction k with
  | zero =>
      intro l
      simp [vsplitChunks]
  | succ k ih =>
      intro l
      have : (k + 1) * bs = bs + k * bs := by ring
      rw [this, List.take_add]
      simp [vsplitChunks, ih]

theorem vsplitChunks_length {α : Type} (bs : ℕ) :
    ∀ (k : ℕ) (l : List α), (vsplitChunks bs k l).length = k := by
  intro k
  induction k with
  | zero => intro l; simp [vsplitChunks]
  | succ k ih => intro l; simp [vsplitChunks, ih]

theorem epochBatches_flatten {α : Type} (bs N : ℕ) (l : List α)
    (h : l.length = N) : (epochBatches bs N l).flatten = l := by
  unfold epochBatches
  by_cases hc : N / bs * bs ≠ l.length
  · rw [if_pos hc]
    rw [List.flatten_append, vsplitChunks_flatten]
    simp [List.take_append_drop]
  · rw [if_neg hc]
    push_neg at hc
    rw [vsplitChunks_flatten, hc, List.take_length]

theorem epochBatches_length {α : Type} (bs N : ℕ) (l : List α) (hbs : 1 ≤ bs)
    (h : l.length = N) : (epochBatches bs N l).length = (N + bs - 1) / bs := by
  rw [← ceil_div_eq bs N hbs]
  have hqr : bs * (N / bs) + N % bs = N := Nat.div_add_mod N bs
  unfold epochBatches
  by_cases hc : N / bs * bs ≠ l.length
  · rw [if_pos hc]
    rw [List.length_append, vsplitChunks_length]
    have hm : ¬ N % bs = 0 := by
      intro h0
      rw [h, mul_comm] at hc
      omega
    simp [hm]
  · rw [if_neg hc]
    push_neg at hc
    rw [vsplitChunks_length]
    have hm : N % bs = 0 := by
      rw [h, mul_comm] at hc
      omega
    simp [hm]

theorem foldl_batchStep_losses {α S : Type} (eL : S → List α → S × ℚ)
    (back upd : S → S) :
    ∀ (bl : List (List α)) (s : S) (L : List ℚ),
      ((bl.foldl (batchStep eL back upd) (s, L)).2).length
        = L.length + bl.length := by
  intro bl
  induction bl with
  | nil =>
      intro s L
      simp
  | cons bhd btl ih =>
      intro s L
      rw [List.foldl_cons]
      show ((btl.foldl (batchStep eL back upd)
        (batchStep eL back upd (s, L) bhd)).2).length = L.length + (bhd :: btl).length
      rw [batchStep, ih]
      simp
      omega

theorem trainLoop_spec {α S : Type} (eL : S → List α → S × ℚ) (back upd : S → S)
    (flag : Bool) (perm : ℕ → List α → List α) (bs N : ℕ)
    (hbs : 1 ≤ bs) (hperm : ∀ e l, List.Perm (perm e l) l) :
    ∀ (nLeft e : ℕ) (s : S) (data : List α) (losses : List ℚ)
      (log : List (List (List α))), data.length = N →
      ((trainLoop eL back upd flag perm bs N nLeft e s data losses log).losses.length
          = losses.length + nLeft * ((N + bs - 1) / bs))
      ∧ ((trainLoop eL back upd flag perm bs N nLeft e s data losses log).batchLog.length
          = log.length + nLeft)
      ∧ ∀ bl ∈ (trainLoop eL back upd flag perm bs N nLeft e s data losses log).batchLog,
          bl ∈ log ∨ (List.Perm bl.flatten data ∧ bl.length = (N + bs - 1) / bs) := by
  intro nLeft
  induction nLeft with
  | zero =>
      intro e s data losses log hlen
      refine ⟨by simp [trainLoop], by simp [trainLoop], fun bl hbl => ?_⟩
      exact Or.inl (by simpa [trainLoop] using hbl)
  | succ n ih =>
      intro e s data losses log hlen
      have hperm2 : List.Perm (if flag then perm e data else data) data := by
        cases flag
        · simp
        · simpa using hperm e data
      have hlen2 : (if flag then perm e data else data).length = N :=
        hperm2.length_eq.trans hlen
      have hstep :
          trainLoop eL back upd flag perm bs N (n + 1) e s data losses log
            = trainLoop eL back upd flag perm bs N n (e + 1)
                ((epochBatches bs N (if flag then perm e data else data)).foldl
                  (batchStep eL back upd) (s, losses)).1
                (if flag then perm e data else data)
                ((epochBatches bs N (if flag then perm e data else data)).foldl
                  (batchStep eL back upd) (s, losses)).2
                (log ++ [epochBatches bs N (if flag then perm e data else data)]) := rfl
      rw [hstep]
      obtain ⟨ih1, ih2, ih3⟩ := ih (e + 1)
        ((epochBatches bs N (if flag then perm e data else data)).foldl
          (batchStep eL back upd) (s, losses)).1
        (if flag then perm e data else data)
        ((epochBatches bs N (if flag then perm e data else data)).foldl
          (batchStep eL back upd) (s, losses)).2
        (log ++ [epochBatches bs N (if flag then perm e data else data)]) hlen2
      refine ⟨?_, ?_, ?_⟩
      · rw [ih1, foldl_batchStep_losses, epochBatches_length bs N _ hbs hlen2]
        ring
      · rw [ih2]
        simp
        omega
      · intro bl hbl
        rcases ih3 bl hbl with hin | hnew
        · rcases List.mem_append.1 hin with hl | hr
          · exact Or.inl hl
          · right
            have hbl2 : bl = epochBatches bs N (if flag then perm e data else data) := by
              simpa using hr
            rw [hbl2, epochBatches_flatten bs N _ hlen2]
            exact ⟨hperm2, epochBatches_length bs N _ hbs hlen2⟩
        · exact Or.inr ⟨hnew.1.trans hperm2, hnew.2⟩

/-- C6: for `1 ≤ batch_size ≤ N` rows, `Trainer.train` runs exactly
`nb_epoch` epochs (one batch list per epoch in the log); each epoch's
batches are, as a multiset of rows, exactly the full training set — every
data point in exactly one batch, `floor(N/bs)` full batches plus the
remainder rows as a final batch — each batch undergoing one
`eval_loss`/`backward`/`update_params` triple (the body of `batchStep`);
and the returned loss list has `nb_epoch * ceil(N/bs)` entries, where
`ceil(N/bs) = (N + bs - 1)/bs = N/bs + (1 if bs ∤ N else 0)`. -/
theorem trainer_train_epochs_and_batches {α S : Type}
    (eL : S → List α → S × ℚ) (back upd : S → S) (flag : Bool)
    (perm : ℕ → List α → List α) (bs N nbEpoch : ℕ) (s0 : S) (data : List α)
    (hbs : 1 ≤ bs) (hN : bs ≤ N) (hlen : data.length = N)
    (hperm : ∀ e l, List.Perm (perm e l) l) :
    ((trainModel eL back upd flag perm bs N nbEpoch s0 data).losses.length
        = nbEpoch * ((N + bs - 1) / bs))
    ∧ ((trainModel eL back upd flag perm bs N nbEpoch s0 data).batchLog.length
        = nbEpoch)
    ∧ (∀ bl ∈ (trainModel eL back upd flag perm bs N nbEpoch s0 data).batchLog,
        List.Perm bl.flatten data ∧ bl.length = (N + bs - 1) / bs)
    ∧ (N + bs - 1) / bs = N / bs + (if N % bs = 0 then 0 else 1) := by
  obtain ⟨h1, h2, h3⟩ := trainLoop_spec eL back upd flag perm bs N hbs hperm
    nbEpoch 0 s0 data [] [] hlen
  refine ⟨by simpa [trainModel] using h1, by simpa [trainModel] using h2,
    fun bl hbl => ?_, (ceil_div_eq bs N hbs).symm⟩
  rcases h3 bl hbl with hin | hok
  · exact absurd hin (List.not_mem_nil bl)
  · exact hok

theorem trainer_train_witness :
    (1 ≤ 1 ∧ ([0] : List ℕ).length = 1
      ∧ ∀ (e : ℕ) (l : List ℕ), List.Perm ((fun (_ : ℕ) (l : List ℕ) => l) e l) l)
    ∧ ((trainModel (fun (s : Unit) (_ : List ℕ) => (s, (0 : ℚ))) id id false
          (fun _ l => l) 1 1 2 () [0]).losses.length = 2 * ((1 + 1 - 1) / 1)
        ∧ (trainModel (fun (s : Unit) (_ : List ℕ) => (s, (0 : ℚ))) id id false
            (fun _ l => l) 1 1 2 () [0]).batchLog.length = 2
        ∧ (∀ bl ∈ (trainModel (fun (s : Unit) (_ : List ℕ) => (s, (0 : ℚ))) id id
              false (fun _ l => l) 1 1 2 () [0]).batchLog,
            List.Perm bl.flatten [0] ∧ bl.length = (1 + 1 - 1) / 1)
        ∧ (1 + 1 - 1) / 1 = 1 / 1 + (if 1 % 1 = 0 then 0 else 1)) :=
  ⟨⟨le_refl 1, rfl, fun _ l => List.Perm.refl l⟩,
    trainer_train_epochs_and_batches (fun (s : Unit) (_ : List ℕ) => (s, (0 : ℚ)))
      id id false (fun _ l => l) 1 1 2 () [0] (le_refl 1) (le_refl 1) rfl
      (fun _ l => List.Perm.refl l)⟩

/-- C2 counterexample: at `y_pred = [[1, 0]]`, `y_target = [[0, 0]]` the
value `backward` returns at entry `(0,0)` is `2`, while the exact partial
derivative of `forward`'s return value with respect to that entry is `1`
(`forward` divides by the entry count `m*n`, `backward` only by the row
count `m`). -/
theorem mse_backward_not_gradient :
    mseBackward Pc Tc (0, 0)
      ≠ deriv (fun s => mseForward (updEntry Pc (0, 0) s) Tc) 1 := by
  have hfun : (fun s => mseForward (updEntry Pc (0, 0) s) Tc)
      = fun s => s ^ 2 / 2 := by
    funext s
    simp [mseForward, updEntry, Pc, Tc, Fintype.sum_prod_type,
      Fin.sum_univ_two, Prod.ext_iff]
  have hd : HasDerivAt (fun s => mseForward (updEntry Pc (0, 0) s) Tc) 1 1 := by
    rw [hfun]
    have h1 : HasDerivAt (fun s : ℝ => s ^ 2) 2 1 := by
      simpa using hasDerivAt_pow 2 (1 : ℝ)
    have h2 := h1.div_const 2
    norm_num at h2
    exact h2
  rw [hd.deriv]
  show (2 : ℝ) * (Pc (0, 0) - Tc (0, 0)) / ((1 : ℕ) : ℝ) ≠ 1
  norm_num [Pc, Tc]

/-- C2 (amended): `forward` returns the mean over all entries of the
squared differences; the exact partial derivative of that value with
respect to entry `q0` of `y_pred` is `2*(p - t)/(m*n)`; `backward` however
returns `2*(p - t)/m`, which is the exact gradient multiplied by the number
of columns `n` — the two agree exactly when the arrays have one column. -/
theorem mse_forward_backward_amended {m n : ℕ}
    (p t : Mat ℝ (m + 1) (n + 1)) (q0 : Fin (m + 1) × Fin (n + 1)) :
    mseForward p t = (∑ q, (p q - t q) ^ 2) / (((m : ℝ) + 1) * ((n : ℝ) + 1))
    ∧ HasDerivAt (fun s => mseForward (updEntry p q0 s) t)
        (2 * (p q0 - t q0) / (((m : ℝ) + 1) * ((n : ℝ) + 1))) (p q0)
    ∧ mseBackward p t q0
        = ((n : ℝ) + 1) * (2 * (p q0 - t q0) / (((m : ℝ) + 1) * ((n : ℝ) + 1))) := by
  have hm1 : ((m : ℝ) + 1) ≠ 0 := by positivity
  have hn1 : ((n : ℝ) + 1) ≠ 0 := by positivity
  have hcast : (((m + 1 : ℕ)) : ℝ) * (((n + 1 : ℕ)) : ℝ)
      = ((m : ℝ) + 1) * ((n : ℝ) + 1) := by push_cast; ring
  refine ⟨?_, ?_, ?_⟩
  · rw [mseForward, hcast]
  · have hsplit : ∀ s : ℝ, (∑ q, (updEntry p q0 s q - t q) ^ 2)
        = (s - t q0) ^ 2 + ∑ q ∈ Finset.univ.erase q0, (p q - t q) ^ 2 := by
      intro s
      rw [← Finset.add_sum_erase _ _ (Finset.mem_univ q0)]
      congr 1
      · simp [updEntry]
      · refine Finset.sum_congr rfl fun q hq => ?_
        have hne : q ≠ q0 := Finset.ne_of_mem_erase hq
        simp [updEntry, hne]
    have hfun : (fun s => mseForward (updEntry p q0 s) t)
        = fun s => ((s - t q0) ^ 2 + ∑ q ∈ Finset.univ.erase q0, (p q - t q) ^ 2)
            / (((m : ℝ) + 1) * ((n : ℝ) + 1)) := by
      funext s
      rw [mseForward, hsplit, hcast]
    rw [hfun]
    have hbase : HasDerivAt (fun s : ℝ => (s - t q0) ^ 2)
        (2 * (p q0 - t q0)) (p q0) := by
      have h1 := ((hasDerivAt_id (p q0)).sub_const (t q0)).pow 2
      simpa using h1
    have h2 := (hbase.add_const
      (∑ q ∈ Finset.univ.erase q0, (p q - t q) ^ 2)).div_const
      (((m : ℝ) + 1) * ((n : ℝ) + 1))
    exact h2
  · rw [mseBackward]
    push_cast
    field_simp
    ring

theorem sumExp_pos {m n : ℕ} (x : Mat ℝ m (n + 1)) (i : Fin m) :
    0 < ∑ k, Real.exp (x (i, k)) :=
  Finset.sum_pos (fun k _ => Real.exp_pos _) Finset.univ_nonempty

theorem softmaxArr_eq_specSoftmax {m n : ℕ} (x : Mat ℝ m (n + 1))
    (q : Fin m × Fin (n + 1)) : softmaxArr x q = specSoftmax x q := by
  unfold softmaxArr specSoftmax
  have hnum : Real.exp (x q - rowMax x q.1)
      = Real.exp (-rowMax x q.1) * Real.exp (x q) := by
    rw [← Real.exp_add]
    congr 1
    ring
  have hden : (∑ k, Real.exp (x (q.1, k) - rowMax x q.1))
      = Real.exp (-rowMax x q.1) * ∑ k, Real.exp (x (q.1, k)) := by
    rw [Finset.mul_sum]
    refine Finset.sum_congr rfl fun k _ => ?_
    rw [← Real.exp_add]
    congr 1
    ring
  rw [hnum, hden, mul_div_mul_left _ _ (Real.exp_ne_zero _)]

theorem log_specSoftmax {m n : ℕ} (x : Mat ℝ m (n + 1))
    (q : Fin m × Fin (n + 1)) :
    Real.log (specSoftmax x q)
      = x q - Real.log (∑ k, Real.exp (x (q.1, k))) := by
  unfold specSoftmax
  rw [Real.log_div (Real.exp_ne_zero _) (ne_of_gt (sumExp_pos x q.1)),
    Real.log_exp]

theorem ceForward_logsumexp {m n : ℕ} (x y : Mat ℝ (m + 1) (n + 1)) :
    ceForward x y = -1 / ((m : ℝ) + 1)
      * ∑ q, y q * (x q - Real.log (∑ k, Real.exp (x (q.1, k)))) := by
  unfold ceForward
  congr 1
  refine Finset.sum_congr rfl fun q _ => ?_
  rw [softmaxArr_eq_specSoftmax, log_specSoftmax]

theorem updEntry_self {m n : ℕ} (x : Mat ℝ m n) (q0 : Fin m × Fin n) :
    updEntry x q0 (x q0) = x := by
  funext q
  unfold updEntry
  by_cases h : q = q0
  · rw [if_pos h, h]
  · rw [if_neg h]

theorem gRow_eq {m n : ℕ} (x : Mat ℝ (m + 1) (n + 1))
    (q0 : Fin (m + 1) × Fin (n + 1)) :
    gRow x q0 = fun s => Real.exp s
      + ∑ k ∈ Finset.univ.erase q0.2, Real.exp (x (q0.1, k)) := by
  funext s
  unfold gRow
  rw [← Finset.add_sum_erase _ _ (Finset.mem_univ q0.2)]
  congr 1
  · congr 1
    simp [updEntry]
  · refine Finset.sum_congr rfl fun k hk => ?_
    have hne : k ≠ q0.2 := Finset.ne_of_mem_erase hk
    congr 1
    simp [updEntry, Prod.ext_iff, hne]

theorem gRow_pos {m n : ℕ} (x : Mat ℝ (m + 1) (n + 1))
    (q0 : Fin (m + 1) × Fin (n + 1)) (s : ℝ) : 0 < gRow x q0 s :=
  Finset.sum_pos (fun k _ => Real.exp_pos _) Finset.univ_nonempty

theorem gRow_hasDerivAt {m n : ℕ} (x : Mat ℝ (m + 1) (n + 1))
    (q0 : Fin (m + 1) × Fin (n + 1)) (s : ℝ) :
    HasDerivAt (gRow x q0) (Real.exp s) s := by
  rw [gRow_eq]
  exact (Real.hasDerivAt_exp s).add_const _

theorem gRow_at_self {m n : ℕ} (x : Mat ℝ (m + 1) (n + 1))
    (q0 : Fin (m + 1) × Fin (n + 1)) :
    gRow x q0 (x q0) = ∑ k, Real.exp (x (q0.1, k)) := by
  unfold gRow
  rw [updEntry_self]

theorem ceForward_upd_eq {m n : ℕ} (x y : Mat ℝ (m + 1) (n + 1))
    (q0 : Fin (m + 1) × Fin (n + 1)) :
    (fun s => ceForward (updEntry x q0 s) y)
      = fun s => -1 / ((m : ℝ) + 1)
          * ((∑ k, y (q0.1, k)
                * ((if k = q0.2 then s else x (q0.1, k)) - Real.log (gRow x q0 s)))
            + ∑ i ∈ Finset.univ.erase q0.1, ∑ k, y (i, k)
                * (x (i, k) - Real.log (∑ k2, Real.exp (x (i, k2))))) := by
  funext s
  rw [ceForward_logsumexp]
  congr 1
  rw [Fintype.sum_prod_type, ← Finset.add_sum_erase _ _ (Finset.mem_univ q0.1)]
  congr 1
  · refine Finset.sum_congr rfl fun k _ => ?_
    have h1 : updEntry x q0 s (q0.1, k) = if k = q0.2 then s else x (q0.1, k) := by
      by_cases hk : k = q0.2
      · rw [if_pos hk, hk]
        simp [updEntry]
      · rw [if_neg hk]
        simp [updEntry, Prod.ext_iff, hk]
    rw [h1]
    rfl
  · refine Finset.sum_congr rfl fun i hi => ?_
    have hne : i ≠ q0.1 := Finset.ne_of_mem_erase hi
    refine Finset.sum_congr rfl fun k _ => ?_
    have h1 : updEntry x q0 s (i, k) = x (i, k) := by
      simp [updEntry, Prod.ext_iff, hne]
    have h2 : (∑ k2, Real.exp (updEntry x q0 s (i, k2)))
        = ∑ k2, Real.exp (x (i, k2)) := by
      refine Finset.sum_congr rfl fun k2 _ => ?_
      congr 1
      simp [updEntry, Prod.ext_iff, hne]
    rw [h1]
    exact congrArg (fun z => y (i, k) * (x (i, k) - Real.log z)) h2

/-- C3: for targets whose rows sum to 1, `forward` returns the softmax
negative log-likelihood averaged over the `n_obs` rows (with the textbook,
unshifted softmax — the stability shift cancels), `backward` returns
`(softmax(inputs) - y_target)/n_obs`, and that value is the exact partial
derivative of the returned loss with respect to each entry of `inputs`. -/
theorem crossentropy_forward_backward {m n : ℕ} (x y : Mat ℝ (m + 1) (n + 1))
    (hrow : ∀ i, ∑ k, y (i, k) = 1) :
    ceForward x y = -1 / ((m : ℝ) + 1) * ∑ q, y q * Real.log (specSoftmax x q)
    ∧ (∀ q, ceBackward x y q = (softmaxArr x q - y q) / ((m : ℝ) + 1))
    ∧ ∀ q0, HasDerivAt (fun s => ceForward (updEntry x q0 s) y)
        (ceBackward x y q0) (x q0) := by
  have hm : ((m : ℝ) + 1) ≠ 0 := by positivity
  refine ⟨?_, ?_, ?_⟩
  · unfold ceForward
    congr 1
    exact Finset.sum_congr rfl fun q _ => by rw [softmaxArr_eq_specSoftmax]
  · intro q
    unfold ceBackward
    field_simp
  · intro q0
    rw [ceForward_upd_eq]
    have hlog : HasDerivAt (fun s => Real.log (gRow x q0 s))
        (Real.exp (x q0) / gRow x q0 (x q0)) (x q0) :=
      (gRow_hasDerivAt x q0 (x q0)).log (ne_of_gt (gRow_pos x q0 (x q0)))
    have hsum : HasDerivAt
        (fun s => ∑ k, y (q0.1, k)
          * ((if k = q0.2 then s else x (q0.1, k)) - Real.log (gRow x q0 s)))
        (∑ k, y (q0.1, k)
          * ((if k = q0.2 then 1 else 0) - Real.exp (x q0) / gRow x q0 (x q0)))
        (x q0) := by
      refine HasDerivAt.sum fun k _ => ?_
      by_cases hk : k = q0.2
      · simp only [if_pos hk]
        exact ((hasDerivAt_id (x q0)).sub hlog).const_mul _
      · simp only [if_neg hk]
        exact ((hasDerivAt_const (x q0) _).sub hlog).const_mul _
    have hfull := (hsum.add_const
      (∑ i ∈ Finset.univ.erase q0.1, ∑ k, y (i, k)
        * (x (i, k) - Real.log (∑ k2, Real.exp (x (i, k2)))))).const_mul
      (-1 / ((m : ℝ) + 1))
    have hr : Real.exp (x q0) / gRow x q0 (x q0) = softmaxArr x q0 := by
      rw [gRow_at_self, softmaxArr_eq_specSoftmax]
      rfl
    have hval : (∑ k, y (q0.1, k)
        * ((if k = q0.2 then 1 else 0) - Real.exp (x q0) / gRow x q0 (x q0)))
        = y q0 - softmaxArr x q0 := by
      rw [hr]
      have hterm : ∀ k, y (q0.1, k) * ((if k = q0.2 then 1 else 0) - softmaxArr x q0)
          = (if k = q0.2 then y (q0.1, k) else 0) - y (q0.1, k) * softmaxArr x q0 := by
        intro k
        by_cases hk : k = q0.2
        · rw [if_pos hk, if_pos hk]
          ring
        · rw [if_neg hk, if_neg hk]
          ring
      rw [Finset.sum_congr rfl fun k _ => hterm k, Finset.sum_sub_distrib,
        Finset.sum_ite_eq' Finset.univ q0.2, if_pos (Finset.mem_univ _),
        ← Finset.sum_mul, hrow q0.1, one_mul, Prod.mk.eta]
    have hd : ceBackward x y q0 = -1 / ((m : ℝ) + 1)
        * (∑ k, y (q0.1, k)
            * ((if k = q0.2 then 1 else 0) - Real.exp (x q0) / gRow x q0 (x q0))) := by
      rw [hval]
      rfl
    rw [hd]
    exact hfull

theorem crossentropy_forward_backward_witness :
    (∀ i, ∑ k, cey (i, k) = 1)
    ∧ (ceForward cex cey
        = -1 / (((0 : ℕ) : ℝ) + 1) * ∑ q, cey q * Real.log (specSoftmax cex q)
      ∧ (∀ q, ceBackward cex cey q
          = (softmaxArr cex q - cey q) / (((0 : ℕ) : ℝ) + 1))
      ∧ ∀ q0, HasDerivAt (fun s => ceForward (updEntry cex q0 s) cey)
          (ceBackward cex cey q0) (cex q0)) := by
  have hrow : ∀ i, ∑ k, cey (i, k) = 1 := by
    intro i
    simp [cey]
  exact ⟨hrow, crossentropy_forward_backward cex cey hrow⟩

/-! Scalar derivatives of the activation maps. -/

theorem hasDerivAt_sigmoid (t : ℝ) :
    HasDerivAt sigmoid (sigmoid t * (1 - sigmoid t)) t := by
  have hpos : 0 < 1 + Real.exp (-t) := by positivity
  have hne : 1 + Real.exp (-t) ≠ 0 := ne_of_gt hpos
  have hexp : HasDerivAt (fun s : ℝ => 1 + Real.exp (-s)) (-Real.exp (-t)) t := by
    have h1 : HasDerivAt (fun s : ℝ => -s) (-1 : ℝ) t := (hasDerivAt_id t).neg
    have h2 := h1.exp
    have h3 := h2.const_add (1 : ℝ)
    convert h3 using 1
    ring
  have hinv := hexp.inv hne
  have hfun : sigmoid = fun s : ℝ => (1 + Real.exp (-s))⁻¹ := by
    funext s
    unfold sigmoid
    rw [one_div]
  rw [hfun]
  convert hinv using 1
  have hbeta : (fun s : ℝ => (1 + Real.exp (-s))⁻¹) t = (1 + Real.exp (-t))⁻¹ := rfl
  rw [hbeta]
  field_simp
  ring

theorem hasDerivAt_reluF {t : ℝ} (ht : t ≠ 0) :
    HasDerivAt reluF (if 0 < t then 1 else 0) t := by
  rcases ht.lt_or_lt with hneg | hpos
  · have hmem : Set.Iio (0 : ℝ) ∈ nhds t := isOpen_Iio.mem_nhds hneg
    have hev : reluF =ᶠ[nhds t] fun _ : ℝ => (0 : ℝ) := by
      filter_upwards [hmem] with s hs
      unfold reluF
      rw [max_eq_left (le_of_lt hs)]
    rw [if_neg (not_lt.2 (le_of_lt hneg))]
    exact (hasDerivAt_const t 0).congr_of_eventuallyEq hev
  · have hmem : Set.Ioi (0 : ℝ) ∈ nhds t := isOpen_Ioi.mem_nhds hpos
    have hev : reluF =ᶠ[nhds t] fun s : ℝ => s := by
      filter_upwards [hmem] with s hs
      unfold reluF
      rw [max_eq_right (le_of_lt hs)]
    rw [if_pos hpos]
    exact (hasDerivAt_id t).congr_of_eventuallyEq hev

theorem actPrime_relu_eq {t : ℝ} (ht : t ≠ 0) :
    actPrimeFromCache .relu (reluF t) = if 0 < t then 1 else 0 := by
  rcases ht.lt_or_lt with hneg | hpos
  · unfold reluF
    rw [max_eq_left (le_of_lt hneg)]
    rw [if_neg (not_lt.2 (le_of_lt hneg))]
    simp [actPrimeFromCache]
  · unfold reluF
    rw [max_eq_right (le_of_lt hpos)]
    rw [if_pos hpos]
    simp [actPrimeFromCache, not_lt.2 (le_of_lt hpos), hpos]

/-- The scalar derivative each activation's `backward` encodes: on its
cached output, `f_prime` is the true derivative of the activation map
(for relu, away from the kink at 0). -/
theorem actFun_hasDerivAt (k : ActKind) {t : ℝ} (ht : k = .relu → t ≠ 0) :
    HasDerivAt (actFun k) (actPrimeFromCache k (actFun k t)) t := by
  cases k
  · have htz := ht rfl
    have h1 := hasDerivAt_reluF htz
    simp only [actFun]
    rw [actPrime_relu_eq htz]
    exact h1
  · simp only [actFun, actPrimeFromCache]
    exact hasDerivAt_sigmoid t

/-! The linear maps appearing as derivatives, and their compositions. -/

theorem dualOf_apply {ι : Type} [Fintype ι] (g v : ι → ℝ) :
    dualOf g v = ∑ i, g i * v i := by
  simp [dualOf, ContinuousLinearMap.sum_apply, ContinuousLinearMap.smul_apply,
    ContinuousLinearMap.proj_apply, smul_eq_mul]

theorem diagCLM_apply {ι : Type} [Fintype ι] (d v : ι → ℝ) (i : ι) :
    diagCLM d v i = d i * v i := by
  simp [diagCLM, ContinuousLinearMap.pi_apply, ContinuousLinearMap.smul_apply,
    ContinuousLinearMap.proj_apply, smul_eq_mul]

theorem rightMulCLM_apply {b d1 d2 : ℕ} (W : Mat ℝ d1 d2) (v : Mat ℝ b d1)
    (p : Fin b × Fin d2) :
    rightMulCLM W v p = ∑ j, v (p.1, j) * W (j, p.2) := by
  simp [rightMulCLM, ContinuousLinearMap.pi_apply,
    ContinuousLinearMap.sum_apply, ContinuousLinearMap.smul_apply,
    ContinuousLinearMap.proj_apply, smul_eq_mul, mul_comm]

theorem leftMulCLM_apply {b d1 d2 : ℕ} (x : Mat ℝ b d1) (V : Mat ℝ d1 d2)
    (p : Fin b × Fin d2) :
    leftMulCLM x V p = ∑ j, x (p.1, j) * V (j, p.2) := by
  simp [leftMulCLM, ContinuousLinearMap.pi_apply,
    ContinuousLinearMap.sum_apply, ContinuousLinearMap.smul_apply,
    ContinuousLinearMap.proj_apply, smul_eq_mul]

theorem biasCLM_apply {b n : ℕ} (v : Mat ℝ 1 n) (p : Fin b × Fin n) :
    biasCLM b n v p = v (0, p.2) := by
  simp [biasCLM, ContinuousLinearMap.pi_apply, ContinuousLinearMap.proj_apply]

theorem rightMulCLM_eq_matMul {b d1 d2 : ℕ} (W : Mat ℝ d1 d2)
    (v : Mat ℝ b d1) : rightMulCLM W v = matMul v W := by
  funext p
  rw [rightMulCLM_apply, matMul]

theorem dual_comp_diag {ι : Type} [Fintype ι] (g d : ι → ℝ) :
    (dualOf g).comp (diagCLM d) = dualOf (fun i => g i * d i) := by
  refine ContinuousLinearMap.ext fun v => ?_
  rw [ContinuousLinearMap.comp_apply, dualOf_apply, dualOf_apply]
  refine Finset.sum_congr rfl fun i _ => ?_
  rw [diagCLM_apply]
  ring

theorem dual_comp_rightMul {b d1 d2 : ℕ} (g : Mat ℝ b d2) (W : Mat ℝ d1 d2) :
    (dualOf g).comp (rightMulCLM W) = dualOf (matMul g (transpose W)) := by
  refine ContinuousLinearMap.ext fun v => ?_
  rw [ContinuousLinearMap.comp_apply, dualOf_apply, dualOf_apply]
  rw [Fintype.sum_prod_type, Fintype.sum_prod_type]
  refine Finset.sum_congr rfl fun i _ => ?_
  calc ∑ c, g (i, c) * rightMulCLM W v (i, c)
      = ∑ c, ∑ j, g (i, c) * (v (i, j) * W (j, c)) := by
        refine Finset.sum_congr rfl fun c _ => ?_
        rw [rightMulCLM_apply, Finset.mul_sum]
    _ = ∑ j, ∑ c, g (i, c) * (v (i, j) * W (j, c)) := Finset.sum_comm
    _ = ∑ j, matMul g (transpose W) (i, j) * v (i, j) := by
        refine Finset.sum_congr rfl fun j _ => ?_
        rw [matMul, Finset.sum_mul]
        refine Finset.sum_congr rfl fun c _ => ?_
        rw [transpose]
        ring

theorem dual_comp_leftMul {b d1 d2 : ℕ} (g : Mat ℝ b d2) (x : Mat ℝ b d1) :
    (dualOf g).comp (leftMulCLM x) = dualOf (matMul (transpose x) g) := by
  refine ContinuousLinearMap.ext fun v => ?_
  rw [ContinuousLinearMap.comp_apply, dualOf_apply, dualOf_apply]
  rw [Fintype.sum_prod_type, Fintype.sum_prod_type]
  calc ∑ i, ∑ c, g (i, c) * leftMulCLM x v (i, c)
      = ∑ i, ∑ c, ∑ j, g (i, c) * (x (i, j) * v (j, c)) := by
        refine Finset.sum_congr rfl fun i _ => Finset.sum_congr rfl fun c _ => ?_
        rw [leftMulCLM_apply, Finset.mul_sum]
    _ = ∑ i, ∑ j, ∑ c, g (i, c) * (x (i, j) * v (j, c)) := by
        refine Finset.sum_congr rfl fun i _ => ?_
        exact Finset.sum_comm
    _ = ∑ j, ∑ i, ∑ c, g (i, c) * (x (i, j) * v (j, c)) := Finset.sum_comm
    _ = ∑ j, ∑ c, ∑ i, g (i, c) * (x (i, j) * v (j, c)) := by
        refine Finset.sum_congr rfl fun j _ => ?_
        exact Finset.sum_comm
    _ = ∑ j, ∑ c, matMul (transpose x) g (j, c) * v (j, c) := by
        refine Finset.sum_congr rfl fun j _ => Finset.sum_congr rfl fun c _ => ?_
        rw [matMul, Finset.sum_mul]
        refine Finset.sum_congr rfl fun i _ => ?_
        rw [transpose]
        ring

theorem dual_comp_bias {b n : ℕ} (g : Mat ℝ b n) :
    (dualOf g).comp (biasCLM b n) = dualOf (matMul (onesMat ℝ 1 b) g) := by
  refine ContinuousLinearMap.ext fun v => ?_
  rw [ContinuousLinearMap.comp_apply, dualOf_apply, dualOf_apply]
  rw [Fintype.sum_prod_type, Fintype.sum_prod_type]
  rw [Fin.sum_univ_one]
  calc ∑ i, ∑ c, g (i, c) * biasCLM b n v (i, c)
      = ∑ i, ∑ c, g (i, c) * v (0, c) := by
        refine Finset.sum_congr rfl fun i _ => Finset.sum_congr rfl fun c _ => ?_
        rw [biasCLM_apply]
    _ = ∑ c, ∑ i, g (i, c) * v (0, c) := Finset.sum_comm
    _ = ∑ c, matMul (onesMat ℝ 1 b) g (0, c) * v (0, c) := by
        refine Finset.sum_congr rfl fun c _ => ?_
        rw [matMul, Finset.sum_mul]
        refine Finset.sum_congr rfl fun i _ => ?_
        rw [onesMat]
        ring

/-- Elementwise maps differentiate to the diagonal of the pointwise
derivatives. -/
theorem hasFDerivAt_elementwise {ι : Type} [Fintype ι] {φ : ℝ → ℝ}
    {φd : ι → ℝ} {z : ι → ℝ} (h : ∀ i, HasDerivAt φ (φd i) (z i)) :
    HasFDerivAt (fun v i => φ (v i)) (diagCLM φd) z := by
  refine hasFDerivAt_pi.mpr fun i => ?_
  exact (h i).comp_hasFDerivAt z (hasFDerivAt_apply i z)

theorem affine_hasFDerivAt_input {b d1 d2 : ℕ} (W : Mat ℝ d1 d2)
    (bias : Mat ℝ 1 d2) (x : Mat ℝ b d1) :
    HasFDerivAt (fun y => affineForward W bias y) (@rightMulCLM b d1 d2 W) x := by
  have hfun : (fun y : Mat ℝ b d1 => affineForward W bias y)
      = fun y => @rightMulCLM b d1 d2 W y + fun p => bias (0, p.2) := by
    funext y p
    rw [Pi.add_apply, rightMulCLM_apply, affineForward, matMul]
  rw [hfun]
  exact (@rightMulCLM b d1 d2 W).hasFDerivAt.add_const _

theorem affine_hasFDerivAt_W {b d1 d2 : ℕ} (bias : Mat ℝ 1 d2)
    (x : Mat ℝ b d1) (W : Mat ℝ d1 d2) :
    HasFDerivAt (fun W2 : Mat ℝ d1 d2 => affineForward W2 bias x)
      (@leftMulCLM b d1 d2 x) W := by
  have hfun : (fun W2 : Mat ℝ d1 d2 => affineForward W2 bias x)
      = fun W2 => @leftMulCLM b d1 d2 x W2 + fun p => bias (0, p.2) := by
    funext W2 p
    rw [Pi.add_apply, leftMulCLM_apply, affineForward, matMul]
  rw [hfun]
  exact (@leftMulCLM b d1 d2 x).hasFDerivAt.add_const _

theorem affine_hasFDerivAt_bias {b d1 d2 : ℕ} (W : Mat ℝ d1 d2)
    (x : Mat ℝ b d1) (bias : Mat ℝ 1 d2) :
    HasFDerivAt (fun b2 : Mat ℝ 1 d2 => affineForward W b2 x)
      (biasCLM b d2) bias := by
  have hfun : (fun b2 : Mat ℝ 1 d2 => affineForward W b2 x)
      = fun b2 => (fun p : Fin b × Fin d2 => matMul x W p) + biasCLM b d2 b2 := by
    funext b2 p
    rw [Pi.add_apply, biasCLM_apply, affineForward]
  rw [hfun]
  exact (biasCLM b d2).hasFDerivAt.const_add _

/-! `netForward` reads only the weights and biases: its value agrees with
the cache-independent `netVal`, and neither a forward nor a backward pass
changes the value function. -/

theorem linBackward_params {R : Type} [CommRing R] {b nIn nOut : ℕ}
    (st : LinState R b nIn nOut) (gz : Mat R b nOut)
    {res : LinState R b nIn nOut × Mat R b nIn}
    (h : linBackward st gz = some res) :
    res.1.W = st.W ∧ res.1.bias = st.bias := by
  unfold linBackward at h
  cases hc : st.cache with
  | none =>
      rw [hc] at h
      simp at h
  | some x =>
      rw [hc] at h
      obtain rfl := Option.some.inj h
      exact ⟨rfl, rfl⟩

theorem actBackward_fst {b n : ℕ} (st : ActState ℝ b n) (gz : Mat ℝ b n)
    {res : ActState ℝ b n × Mat ℝ b n} (h : actBackward st gz = some res) :
    res.1 = st := by
  unfold actBackward at h
  cases hc : st.cache with
  | none =>
      rw [hc] at h
      simp at h
  | some c =>
      rw [hc] at h
      obtain rfl := Option.some.inj h
      rfl

theorem netForward_val {b e1 e2 : ℕ} (net : Net ℝ b e1 e2) :
    ∀ x, (netForward net x).2 = netVal net x := by
  induction net with
  | nil =>
      intro x
      rfl
  | cons lin act rest ih =>
      intro x
      show (netForward rest
        (fun p => actFun act.kind (affineForward lin.W lin.bias x p))).2 = _
      rw [ih]
      rfl

theorem netVal_forward_fst {b e1 e2 : ℕ} (net : Net ℝ b e1 e2) :
    ∀ x v, netVal ((netForward net x).1) v = netVal net v := by
  induction net with
  | nil =>
      intro x v
      rfl
  | cons lin act rest ih =>
      intro x v
      show netVal ((netForward rest
          (fun p => actFun act.kind (affineForward lin.W lin.bias x p))).1)
          (fun p => actFun act.kind (affineForward lin.W lin.bias v p))
        = netVal (Net.cons lin act rest) v
      rw [ih]
      rfl

theorem netVal_backward {b e1 e2 : ℕ} (net : Net ℝ b e1 e2) :
    ∀ g net2 gi, netBackward net g = some (net2, gi)
      → ∀ v, netVal net2 v = netVal net v := by
  induction net with
  | nil =>
      intro g net2 gi h v
      have heq := Option.some.inj h
      have hn : Net.nil = net2 := congrArg Prod.fst heq
      rw [← hn]
  | cons lin act rest ih =>
      intro g net2 gi h v
      cases hbr : netBackward rest g with
      | none =>
          rw [netBackward, hbr] at h
          simp at h
      | some br =>
          cases hba : actBackward act br.2 with
          | none =>
              rw [netBackward, hbr] at h
              simp [hba] at h
          | some ba =>
              cases hbl : linBackward lin ba.2 with
              | none =>
                  rw [netBackward, hbr] at h
                  simp [hba, hbl] at h
              | some bl =>
                  rw [netBackward, hbr] at h
                  simp only [hba, hbl] at h
                  have heq := Option.some.inj h
                  have hn : Net.cons bl.1 ba.1 br.1 = net2 := congrArg Prod.fst heq
                  subst hn
                  obtain ⟨hW, hbias⟩ := linBackward_params lin ba.2 hbl
                  have hact : ba.1 = act := actBackward_fst act br.2 hba
                  show netVal br.1
                      (fun p => actFun ba.1.kind (affineForward bl.1.W bl.1.bias v p))
                    = netVal rest
                      (fun p => actFun act.kind (affineForward lin.W lin.bias v p))
                  rw [hW, hbias, hact]
                  exact ih g br.1 br.2 hbr _

/-- C1: for every network and input, after `forward(x)` (which applies the
layer pairs in list order — the recursion of `netForward` — caching along
the way), `backward(grad_z)` succeeds and traverses the pairs in reverse
order (the recursion of `netBackward`); if `grad_z` is the gradient of a
scalar loss `L` at the network output, the returned array is the exact
gradient of `L ∘ forward` at the network input, and every linear layer has
stored the exact gradients of the loss with respect to its own weights and
bias (`StoredGradsExact`).  The relu layers must not sit exactly at their
kinks (`ReluSafe`), where the chain rule does not apply. -/
theorem network_backward_chain_rule {b e1 e2 : ℕ} (net : Net ℝ b e1 e2) :
    ∀ (x : Mat ℝ b e1) (L : Mat ℝ b e2 → ℝ) (gz : Mat ℝ b e2),
      HasFDerivAt L (dualOf gz) ((netForward net x).2) → ReluSafe net x →
      ∃ net2 gin, netBackward (netForward net x).1 gz = some (net2, gin)
        ∧ HasFDerivAt (fun y => L ((netForward net y).2)) (dualOf gin) x
        ∧ StoredGradsExact net2 L x := by
  induction net with
  | nil =>
      intro x L gz hL hsafe
      exact ⟨.nil, gz, rfl, hL, trivial⟩
  | cons lin act rest ih =>
      intro x L gz hL hsafe
      simp only [ReluSafe] at hsafe
      obtain ⟨hrelu, hsafe2⟩ := hsafe
      obtain ⟨net2r, ginr, hback, hderiv, hsg⟩ :=
        ih (fun p => actFun act.kind (affineForward lin.W lin.bias x p)) L gz hL hsafe2
      refine ⟨.cons
        { lin with
            cache := some x
            gradW := some (matMul (transpose x)
              (fun p => ginr p * actPrimeFromCache act.kind
                (actFun act.kind (affineForward lin.W lin.bias x p))))
            gradB := some (matMul (onesMat ℝ 1 b)
              (fun p => ginr p * actPrimeFromCache act.kind
                (actFun act.kind (affineForward lin.W lin.bias x p)))) }
        { act with
            cache := some
                (fun p => actFun act.kind (affineForward lin.W lin.bias x p)) }
        net2r,
        matMul (fun p => ginr p * actPrimeFromCache act.kind
          (actFun act.kind (affineForward lin.W lin.bias x p)))
          (transpose lin.W), ?_, ?_, ?_⟩
      · show netBackward (.cons { lin with cache := some x }
            { act with
                cache := some
                    (fun p => actFun act.kind (affineForward lin.W lin.bias x p)) }
            ((netForward rest
              (fun p => actFun act.kind (affineForward lin.W lin.bias x p))).1)) gz
          = _
        rw [netBackward, hback]
        rfl
      · have hactd : HasFDerivAt
            (fun z2 => fun p => actFun act.kind (z2 p))
            (diagCLM (fun p => actPrimeFromCache act.kind
              (actFun act.kind (affineForward lin.W lin.bias x p))))
            (affineForward lin.W lin.bias x) := by
          refine hasFDerivAt_elementwise fun p => ?_
          refine actFun_hasDerivAt act.kind fun hk => ?_
          exact hrelu hk p
        have hc1 := hderiv.comp (affineForward lin.W lin.bias x) hactd
        rw [dual_comp_diag] at hc1
        have hc2 := hc1.comp x (affine_hasFDerivAt_input lin.W lin.bias x)
        rw [dual_comp_rightMul] at hc2
        exact hc2
      · have hactd : HasFDerivAt
            (fun z2 => fun p => actFun act.kind (z2 p))
            (diagCLM (fun p => actPrimeFromCache act.kind
              (actFun act.kind (affineForward lin.W lin.bias x p))))
            (affineForward lin.W lin.bias x) := by
          refine hasFDerivAt_elementwise fun p => ?_
          refine actFun_hasDerivAt act.kind fun hk => ?_
          exact hrelu hk p
        have hval2 : ∀ v, netVal net2r v = netVal rest v := by
          intro v
          rw [netVal_backward ((netForward rest
            (fun p => actFun act.kind (affineForward lin.W lin.bias x p))).1)
            gz net2r ginr hback v]
          exact netVal_forward_fst rest _ v
        have hderivV : HasFDerivAt (fun v => L (netVal rest v)) (dualOf ginr)
            (fun p => actFun act.kind (affineForward lin.W lin.bias x p)) := by
          have hfe : (fun y => L ((netForward rest y).2))
              = fun v => L (netVal rest v) := by
            funext y
            rw [netForward_val]
          rw [← hfe]
          exact hderiv
        have hcV := hderivV.comp (affineForward lin.W lin.bias x) hactd
        rw [dual_comp_diag] at hcV
        simp only [StoredGradsExact]
        refine ⟨⟨_, rfl, ?_⟩, ⟨_, rfl, ?_⟩, ?_⟩
        · have hfeq : (fun W2 => L (netVal (Net.cons
              { lin with
                  cache := some x
                  gradW := some (matMul (transpose x)
                    (fun p => ginr p * actPrimeFromCache act.kind
                      (actFun act.kind (affineForward lin.W lin.bias x p))))
                  gradB := some (matMul (onesMat ℝ 1 b)
                    (fun p => ginr p * actPrimeFromCache act.kind
                      (actFun act.kind (affineForward lin.W lin.bias x p))))
                  W := W2 }
              { act with
                  cache := some
                      (fun p => actFun act.kind (affineForward lin.W lin.bias x p)) }
              net2r) x))
              = fun W2 => L (netVal rest
                (fun p => actFun act.kind (affineForward W2 lin.bias x p))) := by
            funext W2
            show L (netVal net2r
              (fun p => actFun act.kind (affineForward W2 lin.bias x p))) = _
            rw [hval2]
          rw [hfeq]
          have h2 := hcV.comp lin.W (affine_hasFDerivAt_W lin.bias x lin.W)
          rw [dual_comp_leftMul] at h2
          exact h2
        · have hfeq : (fun b2 => L (netVal (Net.cons
              { lin with
                  cache := some x
                  gradW := some (matMul (transpose x)
                    (fun p => ginr p * actPrimeFromCache act.kind
                      (actFun act.kind (affineForward lin.W lin.bias x p))))
                  gradB := some (matMul (onesMat ℝ 1 b)
                    (fun p => ginr p * actPrimeFromCache act.kind
                      (actFun act.kind (affineForward lin.W lin.bias x p))))
                  bias := b2 }
              { act with
                  cache := some
                      (fun p => actFun act.kind (affineForward lin.W lin.bias x p)) }
              net2r) x))
              = fun b2 => L (netVal rest
                (fun p => actFun act.kind (affineForward lin.W b2 x p))) := by
            funext b2
            show L (netVal net2r
              (fun p => actFun act.kind (affineForward lin.W b2 x p))) = _
            rw [hval2]
          rw [hfeq]
          have h2 := hcV.comp lin.bias (affine_hasFDerivAt_bias lin.W x lin.bias)
          rw [dual_comp_bias] at h2
          exact h2
        · exact hsg

theorem network_backward_chain_rule_witness :
    (HasFDerivAt (fun m : Mat ℝ 1 1 => m (0, 0)) (dualOf gzW)
        ((netForward netW xW).2)
      ∧ ReluSafe netW xW)
    ∧ ∃ net2 gin, netBackward (netForward netW xW).1 gzW = some (net2, gin)
        ∧ HasFDerivAt (fun y => (fun m : Mat ℝ 1 1 => m (0, 0))
            ((netForward netW y).2)) (dualOf gin) xW
        ∧ StoredGradsExact net2 (fun m : Mat ℝ 1 1 => m (0, 0)) xW := by
  have hd : dualOf gzW
      = (ContinuousLinearMap.proj ((0 : Fin 1), (0 : Fin 1))
          : (Mat ℝ 1 1) →L[ℝ] ℝ) := by
    refine ContinuousLinearMap.ext fun v => ?_
    rw [dualOf_apply, ContinuousLinearMap.proj_apply]
    simp [gzW, Fintype.sum_prod_type]
  have hL : HasFDerivAt (fun m : Mat ℝ 1 1 => m (0, 0)) (dualOf gzW)
      ((netForward netW xW).2) := by
    rw [hd]
    exact hasFDerivAt_apply ((0 : Fin 1), (0 : Fin 1)) ((netForward netW xW).2)
  have hs : ReluSafe netW xW := by
    refine ⟨fun _ p => ?_, trivial⟩
    show affineForward linW.W linW.bias xW p ≠ 0
    have : affineForward linW.W linW.bias xW p = 1 := by
      simp [affineForward, matMul, linW, xW]
    rw [this]
    norm_num
  exact ⟨⟨hL, hs⟩,
    network_backward_chain_rule netW xW (fun m => m (0, 0)) gzW hL hs⟩

end NNLib
